import Mathlib

/-!
Verification of the authkratos admission-decision core.

The definitions below are a shallow embedding of the Go sources:

* `SelectSide`, `sideOpposite` embed `authkratosroutes/side.go`
  (`SelectSide` is a string type in the source; the `panic` on an
  unknown side is modelled as `none`).
* `RouteScope`, `RouteScope.Match`, `RouteScope.Opposite`, `NewInclude`,
  `NewExclude`, `NewSet` embed `authkratosroutes` (route_scope) and
  `internal/utils.NewSet`.  A Go `map[Operation]bool` built by `NewSet`
  maps exactly the listed keys to `true`, so it is embedded as the
  `Finset` of its keys; `maps.Keys` is `Finset.toList`.
* `SelectPath`, `SelectPath.Match` embed the legacy `SelectPath` type,
  whose `Match` checks the map against `nil` (embedded as `Option`).
* `PeriodConfig`, `periodMatchStep`, `periodRun` embed the closure built
  by `matchkratosperiod.NewMatchFunc` (the same algorithm appears in
  `passkratoseveryn.NewMatchFunc`): a concurrent map from operation to a
  lock-guarded `uint64` counter, embedded as `Operation → Option ℕ`
  with the `uint64` wrap kept explicit; serialized calls are a fold.
* `RandomConfig`, `randomMatchStep`, `randomRun` embed the closure built
  by `matchkratosrandom.NewMatchFunc`; the shared random source
  (`rand.Float64`) is embedded as a fixed sequence `ℕ → ℚ` of draws
  together with a cursor, one draw consumed whenever the source code
  calls `rand.Float64()`.

APM span bookkeeping and debug logging in the source are side channels
that never touch the returned boolean or the counters, so they have no
counterpart in the embedding.
-/

namespace AuthKratos

/-- Operation identifiers are opaque strings (`type Operation = string`). -/
abbrev Operation := String

/-- `type SelectSide string` from side.go: a string-typed polarity. -/
abbrev SelectSide := String

/-- The INCLUDE polarity constant. -/
def INCLUDE : SelectSide := "INCLUDE"

/-- The EXCLUDE polarity constant. -/
def EXCLUDE : SelectSide := "EXCLUDE"

/-- `SelectSide.Opposite` from side.go; the default branch panics,
modelled as `none`. -/
def sideOpposite (s : SelectSide) : Option SelectSide :=
  if s = INCLUDE then some EXCLUDE
  else if s = EXCLUDE then some INCLUDE
  else none

/-- `utils.NewSet`: builds a `map[T]bool` with all listed keys set to
`true`; duplicates collapse.  Embedded as the finite set of keys. -/
def NewSet (operations : List Operation) : Finset Operation :=
  operations.toFinset

/-- `RouteScope` from the authkratosroutes package. -/
structure RouteScope where
  Side : SelectSide
  OperationSet : Finset Operation

/-- `authkratosroutes.NewInclude`. -/
def NewInclude (operations : List Operation) : RouteScope :=
  { Side := INCLUDE, OperationSet := NewSet operations }

/-- `authkratosroutes.NewExclude`. -/
def NewExclude (operations : List Operation) : RouteScope :=
  { Side := EXCLUDE, OperationSet := NewSet operations }

/-- `RouteScope.Match`: INCLUDE returns the map lookup, EXCLUDE its
negation, and the default branch panics (`none`).  A Go map lookup of a
missing key yields `false`, which the `Finset` membership test mirrors. -/
def RouteScope.Match (c : RouteScope) (operation : Operation) : Option Bool :=
  if c.Side = INCLUDE then some (decide (operation ∈ c.OperationSet))
  else if c.Side = EXCLUDE then some (!decide (operation ∈ c.OperationSet))
  else none

/-- `RouteScope.Opposite`: rebuilds the scope of the other polarity from
`maps.Keys` of the member set; the default branch panics (`none`).
`NewSet` applied to the key list of a set is exactly that set (lemma
`NewSet_keys` below), so the rebuilt member set is written directly. -/
def RouteScope.Opposite (c : RouteScope) : Option RouteScope :=
  if c.Side = INCLUDE then some { Side := EXCLUDE, OperationSet := c.OperationSet }
  else if c.Side = EXCLUDE then some { Side := INCLUDE, OperationSet := c.OperationSet }
  else none

/-- Rebuilding a member set from its key list (`maps.Keys` followed by
`utils.NewSet`, as `Opposite` does in the source) gives back the same
set. -/
theorem NewSet_keys (s : Finset Operation) : NewSet s.toList = s := by
  simp [NewSet]

/-- The legacy `SelectPath` type: its `Operations` map may be `nil`,
embedded as `none`. -/
structure SelectPath where
  selectSide : SelectSide
  Operations : Option (Finset Operation)

/-- `SelectPath.Match`: checks the map against `nil` before the lookup;
INCLUDE with a `nil` map matches nothing, EXCLUDE with a `nil` map
matches everything; the default branch panics (`none`). -/
def SelectPath.Match (c : SelectPath) (operation : Operation) : Option Bool :=
  if c.selectSide = INCLUDE then
    match c.Operations with
    | none => some false
    | some s => some (decide (operation ∈ s))
  else if c.selectSide = EXCLUDE then
    match c.Operations with
    | none => some true
    | some s => some (!decide (operation ∈ s))
  else none

end AuthKratos

namespace AuthKratos

/-- The per-operation counter store of `matchkratosperiod.NewMatchFunc`:
`syncmap` from operation to a `countBox` holding a `uint64` count.
`none` means no record exists yet for the key. -/
abbrev CounterMap := Operation → Option ℕ

/-- Configuration of the periodic sampler (`matchkratosperiod.Config`):
route scope, period `n` (a `uint32` in the source), and `matchFirst`. -/
structure PeriodConfig where
  routeScope : RouteScope
  n : ℕ
  matchFirst : Bool

/-- Cardinality of `uint64`; counter arithmetic wraps at this bound. -/
def uint64Card : ℕ := 2 ^ 64

/-- The modulus actually used by the source: `max(cfg.n, 1)`. -/
def periodModulus (n : ℕ) : ℕ := max n 1

/-- One call of the closure returned by `matchkratosperiod.NewMatchFunc`
(the identical closure is built by `passkratoseveryn.NewMatchFunc`):
scope check first (returning `false` without touching the store on a
miss), then `LoadOrStore` of a fresh zero counter, the free first match
when `matchFirst` is set and the record was just created, else
`count = (count + 1) % max(n, 1)` in `uint64` arithmetic and the result
`count == 0`.  Returns the decision and the updated store; `none` is
the scope panic on an invalid polarity. -/
def periodMatchStep (cfg : PeriodConfig) (st : CounterMap) (operation : Operation) :
    Option (Bool × CounterMap) :=
  match cfg.routeScope.Match operation with
  | none => none
  | some false => some (false, st)
  | some true =>
    match st operation with
    | none =>
      if cfg.matchFirst then
        some (true, fun x => if x = operation then some 0 else st x)
      else
        some (decide ((0 + 1) % uint64Card % periodModulus cfg.n = 0),
          fun x => if x = operation then some ((0 + 1) % uint64Card % periodModulus cfg.n)
            else st x)
    | some c0 =>
      some (decide ((c0 + 1) % uint64Card % periodModulus cfg.n = 0),
        fun x => if x = operation then some ((c0 + 1) % uint64Card % periodModulus cfg.n)
          else st x)

/-- A serialized sequence of calls of the periodic match function,
threading the counter store; returns the list of decisions and the
final store. -/
def periodRun (cfg : PeriodConfig) : CounterMap → List Operation →
    Option (List Bool × CounterMap)
  | st, [] => some ([], st)
  | st, op :: ops =>
    match periodMatchStep cfg st op with
    | none => none
    | some (b, st1) =>
      match periodRun cfg st1 ops with
      | none => none
      | some (bs, st2) => some (b :: bs, st2)

/-- Configuration of the random sampler (`matchkratosrandom.Config`). -/
structure RandomConfig where
  routeScope : RouteScope
  matchRate : ℚ

/-- One call of the closure returned by `matchkratosrandom.NewMatchFunc`:
scope check first (returning `false` without drawing on a miss), then
one draw from the shared source and the comparison `draw < matchRate`.
The source is the fixed draw sequence `gen` with cursor `pos`; the
cursor advances exactly when `rand.Float64()` runs. -/
def randomMatchStep (cfg : RandomConfig) (gen : ℕ → ℚ) (pos : ℕ)
    (operation : Operation) : Option (Bool × ℕ) :=
  match cfg.routeScope.Match operation with
  | none => none
  | some false => some (false, pos)
  | some true => some (decide (gen pos < cfg.matchRate), pos + 1)

/-- A serialized sequence of calls of the random match function,
threading the draw cursor. -/
def randomRun (cfg : RandomConfig) (gen : ℕ → ℚ) : ℕ → List Operation →
    Option (List Bool × ℕ)
  | pos, [] => some ([], pos)
  | pos, op :: ops =>
    match randomMatchStep cfg gen pos op with
    | none => none
    | some (b, pos1) =>
      match randomRun cfg gen pos1 ops with
      | none => none
      | some (bs, pos2) => some (b :: bs, pos2)

end AuthKratos

namespace AuthKratos

/-- The modulus `max(n, 1)` used by the periodic sampler is positive. -/
theorem periodModulus_pos (n : ℕ) : 0 < periodModulus n :=
  Nat.lt_of_lt_of_le Nat.zero_lt_one (Nat.le_max_right n 1)

/-- Any block of `M` consecutive naturals contains exactly one multiple
of `M`. -/
theorem countP_mult_range (M : ℕ) (hM : 1 ≤ M) :
    ∀ a, (List.range' a M).countP (fun j => decide (j % M = 0)) = 1 := by
  intro a
  induction a with
  | zero =>
    cases M with
    | zero => exact absurd hM (by omega)
    | succ m =>
      rw [List.range'_succ, List.countP_cons_of_pos _ _ (by simp)]
      have h0 : (List.range' (0 + 1) m).countP
          (fun j => decide (j % (m + 1) = 0)) = 0 := by
        rw [List.countP_eq_zero]
        intro j hj
        have hj1 := List.mem_range'_1.mp hj
        simp only [decide_eq_true_eq]
        rw [Nat.mod_eq_of_lt (by omega)]
        omega
      rw [h0]
  | succ a ih =>
    have h1 : (a :: List.range' (a + 1) M) = List.range' a M ++ [a + M] := by
      rw [← List.range'_succ, List.range'_1_concat]
    have h2 := congrArg (List.countP fun j => decide (j % M = 0)) h1
    simp only [List.countP_cons, List.countP_append, List.countP_nil,
      Nat.add_mod_right] at h2
    rw [ih] at h2
    omega

/-- Any block of `M` consecutive naturals contains exactly one element
congruent to a fixed residue (stated via a shift `c`). -/
theorem countP_shift_mult_range (M : ℕ) (hM : 1 ≤ M) (c a : ℕ) :
    (List.range' a M).countP (fun j => decide ((j + c) % M = 0)) = 1 := by
  have hmap : (List.range' a M).map (c + ·) = List.range' (c + a) M :=
    List.map_add_range' c a M 1
  have hcount := countP_mult_range M hM (c + a)
  rw [← hmap, List.countP_map] at hcount
  have hfun : ((fun j => decide (j % M = 0)) ∘ (c + ·))
      = fun j => decide ((j + c) % M = 0) := by
    funext j
    simp [Function.comp, Nat.add_comm]
  rwa [hfun] at hcount

/-- Unfolding of `periodRun` on a cons when the step and the rest of
the run both succeed. -/
theorem periodRun_cons (cfg : PeriodConfig) (st : CounterMap) (op : Operation)
    (ops : List Operation) (b : Bool) (st1 : CounterMap) (bs : List Bool)
    (st2 : CounterMap) (h1 : periodMatchStep cfg st op = some (b, st1))
    (h2 : periodRun cfg st1 ops = some (bs, st2)) :
    periodRun cfg st (op :: ops) = some (b :: bs, st2) := by
  simp only [periodRun, h1, h2]

/-- From a state holding count `c0` for `op`, a run of `k` serialized
in-scope calls for `op` produces the decisions
`(c0 + j + 1) % max(n, 1) == 0` for `j = 0, …, k-1`, and leaves the
count at `(c0 + k) % max(n, 1)` with every other key untouched. -/
theorem periodRun_counting (cfg : PeriodConfig) (op : Operation)
    (hscope : cfg.routeScope.Match op = some true)
    (hM : periodModulus cfg.n < uint64Card) :
    ∀ (k : ℕ) (st : CounterMap) (c0 : ℕ), st op = some c0 →
      c0 < periodModulus cfg.n →
      periodRun cfg st (List.replicate k op)
        = some ((List.range k).map fun j =>
              decide ((c0 + j + 1) % periodModulus cfg.n = 0),
            fun x => if x = op then some ((c0 + k) % periodModulus cfg.n)
              else st x) := by
  intro k
  induction k with
  | zero =>
    intro st c0 hst hc0
    simp only [List.replicate, periodRun, List.range_zero, List.map_nil]
    refine congrArg some ?_
    rw [Prod.mk.injEq]
    refine ⟨rfl, ?_⟩
    funext x
    by_cases hx : x = op
    · subst hx
      rw [if_pos rfl, Nat.add_zero, Nat.mod_eq_of_lt hc0, hst]
    · rw [if_neg hx]
  | succ m ih =>
    intro st c0 hst hc0
    have hMpos : 0 < periodModulus cfg.n := periodModulus_pos cfg.n
    have hwrap : (c0 + 1) % uint64Card = c0 + 1 :=
      Nat.mod_eq_of_lt (lt_of_le_of_lt (Nat.succ_le_of_lt hc0) hM)
    have hstep : periodMatchStep cfg st op
        = some (decide ((c0 + 1) % periodModulus cfg.n = 0),
            fun x => if x = op then some ((c0 + 1) % periodModulus cfg.n)
              else st x) := by
      simp only [periodMatchStep, hscope, hst, hwrap]
    have hc1 : (c0 + 1) % periodModulus cfg.n < periodModulus cfg.n :=
      Nat.mod_lt _ hMpos
    rw [List.replicate_succ]
    refine (periodRun_cons cfg st op _ _ _ _ _ hstep
      (ih _ ((c0 + 1) % periodModulus cfg.n) (by simp) hc1)).trans ?_
    refine congrArg some ?_
    rw [Prod.mk.injEq]
    refine ⟨?_, ?_⟩
    · rw [List.range_succ_eq_map, List.map_cons, List.map_map]
      refine congrArg₂ _ ?_ ?_
      · have h0 : c0 + 0 + 1 = c0 + 1 := by omega
        rw [h0]
      · refine List.map_congr_left fun j _ => ?_
        have harith : ((c0 + 1) % periodModulus cfg.n + j + 1) % periodModulus cfg.n
            = (c0 + (j + 1) + 1) % periodModulus cfg.n := by
          rw [add_assoc, Nat.mod_add_mod]
          congr 1
          omega
        simp only [Function.comp_apply, Nat.succ_eq_add_one, harith]
    · funext x
      by_cases hx : x = op
      · subst hx
        have harith : ((c0 + 1) % periodModulus cfg.n + m) % periodModulus cfg.n
            = (c0 + (m + 1)) % periodModulus cfg.n := by
          rw [Nat.mod_add_mod]
          congr 1
          omega
        simp [harith]
      · simp only [if_neg hx]

/-- Characterization of the periodic sampler from a fresh store: a run
of `k` serialized in-scope calls for a single operation, starting with
no record, yields decision `j % max(n, 1) == 0` on the (j+1)-th call
when `matchFirst` is set (a free first match at count 0) and
`(j + 1) % max(n, 1) == 0` otherwise, and leaves only the record of
that operation, at count `(k-1) % max(n, 1)` resp. `k % max(n, 1)`. -/
theorem periodRun_single_op (cfg : PeriodConfig) (op : Operation)
    (hscope : cfg.routeScope.Match op = some true)
    (hM : periodModulus cfg.n < uint64Card) (k : ℕ) :
    periodRun cfg (fun _ => none) (List.replicate k op)
      = some ((List.range k).map fun j =>
            if cfg.matchFirst then decide (j % periodModulus cfg.n = 0)
            else decide ((j + 1) % periodModulus cfg.n = 0),
          fun x => if x = op then
              (if k = 0 then none
               else some (if cfg.matchFirst then (k - 1) % periodModulus cfg.n
                 else k % periodModulus cfg.n))
            else none) := by
  have hMpos : 0 < periodModulus cfg.n := periodModulus_pos cfg.n
  cases k with
  | zero =>
    simp only [List.replicate, periodRun, List.range_zero, List.map_nil]
    refine congrArg some ?_
    rw [Prod.mk.injEq]
    refine ⟨rfl, ?_⟩
    funext x
    by_cases hx : x = op <;> simp [hx]
  | succ m =>
    have hwrap1 : (0 + 1) % uint64Card = 1 :=
      Nat.mod_eq_of_lt (by norm_num [uint64Card])
    cases hmf : cfg.matchFirst with
    | true =>
      have hstep : periodMatchStep cfg (fun _ => none) op
          = some (true, fun x => if x = op then some 0 else none) := by
        simp [periodMatchStep, hscope, hmf]
      rw [List.replicate_succ]
      refine (periodRun_cons cfg _ op _ _ _ _ _ hstep
        (periodRun_counting cfg op hscope hM m
          (fun x => if x = op then some 0 else none) 0 (by simp) hMpos)).trans ?_
      refine congrArg some ?_
      rw [Prod.mk.injEq]
      refine ⟨?_, ?_⟩
      · rw [List.range_succ_eq_map, List.map_cons, List.map_map]
        refine congrArg₂ _ ?_ ?_
        · simp [hmf]
        · refine List.map_congr_left fun j _ => ?_
          simp only [Function.comp_apply, Nat.succ_eq_add_one, hmf, if_true]
          have h0 : 0 + j + 1 = j + 1 := by omega
          rw [h0]
      · funext x
        by_cases hx : x = op
        · subst hx
          simp [Nat.succ_ne_zero m, hmf]
        · simp only [if_neg hx]
    | false =>
      have hstep : periodMatchStep cfg (fun _ => none) op
          = some (decide (1 % periodModulus cfg.n = 0),
              fun x => if x = op then some (1 % periodModulus cfg.n) else none) := by
        simp [periodMatchStep, hscope, hmf, hwrap1]
      have hc1 : 1 % periodModulus cfg.n < periodModulus cfg.n :=
        Nat.mod_lt _ hMpos
      rw [List.replicate_succ]
      refine (periodRun_cons cfg _ op _ _ _ _ _ hstep
        (periodRun_counting cfg op hscope hM m
          (fun x => if x = op then some (1 % periodModulus cfg.n) else none)
          (1 % periodModulus cfg.n) (by simp) hc1)).trans ?_
      refine congrArg some ?_
      rw [Prod.mk.injEq]
      refine ⟨?_, ?_⟩
      · rw [List.range_succ_eq_map, List.map_cons, List.map_map]
        refine congrArg₂ _ ?_ ?_
        · simp [hmf]
        · refine List.map_congr_left fun j _ => ?_
          simp only [Function.comp_apply, Nat.succ_eq_add_one, hmf, if_false]
          have harith : (1 % periodModulus cfg.n + j + 1) % periodModulus cfg.n
              = (j + 1 + 1) % periodModulus cfg.n := by
            rw [add_assoc, Nat.mod_add_mod]
            congr 1
            omega
          simp [harith]
      · funext x
        by_cases hx : x = op
        · subst hx
          have harith : (1 % periodModulus cfg.n + m) % periodModulus cfg.n
              = (m + 1) % periodModulus cfg.n := by
            rw [Nat.mod_add_mod]
            congr 1
            omega
          simp [Nat.succ_ne_zero m, hmf, harith]
        · simp only [if_neg hx]

/-- C1: the periodic sampler's serialized decision sequence for one
in-scope operation, from a fresh store: with `matchFirst`, the (j+1)-th
call matches exactly when `j % n = 0` (calls 1, n+1, 2n+1, …), and the
stored count after `k ≥ 1` calls is `(k-1) % n` — in particular 0 after
the free first match, which does not increment the counter; without
`matchFirst`, the (j+1)-th call matches exactly when `(j+1) % n = 0`
(calls n, 2n, 3n, …) and the count after `k` calls is `k % n`.  Each
identifier has its own record, created on first arrival.  The bound
`n < 2^32` is the `uint32` type of the period in the source. -/
theorem periodic_sampler_sequence (n : ℕ) (hn : 1 ≤ n) (h32 : n < 2 ^ 32)
    (scope : RouteScope) (op : Operation) (mf : Bool) (k : ℕ)
    (hscope : scope.Match op = some true) :
    periodRun ⟨scope, n, mf⟩ (fun _ => none) (List.replicate k op)
      = some ((List.range k).map fun j =>
            if mf then decide (j % n = 0) else decide ((j + 1) % n = 0),
          fun x => if x = op then
              (if k = 0 then none
               else some (if mf then (k - 1) % n else k % n))
            else none) := by
  have hMn : periodModulus n = n := Nat.max_eq_left hn
  have hM : periodModulus n < uint64Card :=
    lt_trans (lt_of_lt_of_le (hMn ▸ h32) (le_refl _)) (by norm_num [uint64Card])
  simpa only [hMn] using periodRun_single_op ⟨scope, n, mf⟩ op hscope hM k

/-- Witness for C1: period 3, matchFirst on, four serialized calls. -/
theorem periodic_sampler_sequence_witness :
    (1 ≤ 3) ∧ (3 < 2 ^ 32) ∧ ((NewExclude []).Match "a" = some true)
    ∧ periodRun ⟨NewExclude [], 3, true⟩ (fun _ => none) (List.replicate 4 "a")
        = some ((List.range 4).map fun j =>
              if true then decide (j % 3 = 0) else decide ((j + 1) % 3 = 0),
            fun x => if x = "a" then
                (if 4 = 0 then none
                 else some (if true then (4 - 1) % 3 else 4 % 3))
              else none) :=
  ⟨by decide, by decide, by decide,
   periodic_sampler_sequence 3 (by decide) (by decide) (NewExclude []) "a" true 4
     (by decide)⟩

/-- C2: a call for an operation outside the scope returns false and
leaves the whole counter store untouched (no record is created and no
count advances), for any number of repetitions and from any store. -/
theorem out_of_scope_leaves_counters (cfg : PeriodConfig) (op : Operation)
    (hscope : cfg.routeScope.Match op = some false) (st : CounterMap) (k : ℕ) :
    periodRun cfg st (List.replicate k op) = some (List.replicate k false, st) := by
  induction k with
  | zero => simp [periodRun]
  | succ m ih =>
    have hstep : periodMatchStep cfg st op = some (false, st) := by
      simp [periodMatchStep, hscope]
    simp only [List.replicate_succ]
    exact periodRun_cons cfg st op _ _ _ _ _ hstep ih

/-- Witness for C2: an INCLUDE scope over "a" and five calls for "b". -/
theorem out_of_scope_leaves_counters_witness :
    ((⟨NewInclude ["a"], 3, true⟩ : PeriodConfig).routeScope.Match "b" = some false)
    ∧ periodRun ⟨NewInclude ["a"], 3, true⟩ (fun _ => none) (List.replicate 5 "b")
        = some (List.replicate 5 false, fun _ => none) :=
  ⟨by decide,
   out_of_scope_leaves_counters ⟨NewInclude ["a"], 3, true⟩ "b" (by decide)
     (fun _ => none) 5⟩

/-- C3: for either `matchFirst` setting, any window of exactly `n`
consecutive serialized decisions for one in-scope operation contains
exactly one `true`. -/
theorem periodic_window_exactly_one (n : ℕ) (hn : 1 ≤ n) (h32 : n < 2 ^ 32)
    (scope : RouteScope) (op : Operation) (mf : Bool) (k s : ℕ)
    (hscope : scope.Match op = some true) (hwin : s + n ≤ k)
    (bs : List Bool) (st : CounterMap)
    (hrun : periodRun ⟨scope, n, mf⟩ (fun _ => none) (List.replicate k op)
      = some (bs, st)) :
    ((bs.drop s).take n).count true = 1 := by
  have hMn : periodModulus n = n := Nat.max_eq_left hn
  have hM : periodModulus n < uint64Card :=
    lt_trans (hMn ▸ h32) (by norm_num [uint64Card])
  have h := periodRun_single_op ⟨scope, n, mf⟩ op hscope hM k
  rw [hrun] at h
  simp only [hMn, Option.some.injEq, Prod.mk.injEq] at h
  obtain ⟨hbs, -⟩ := h
  subst hbs
  have hsk : s ≤ k := le_trans (Nat.le_add_right s n) hwin
  have hnk : n ≤ k - s := by omega
  have hsplit1 : List.range k = List.range' 0 s ++ List.range' s (k - s) := by
    have h1 := List.range'_append_1 0 s (k - s)
    rw [Nat.zero_add, Nat.sub_add_cancel hsk] at h1
    rw [List.range_eq_range']
    exact h1.symm
  have hsplit2 : List.range' s (k - s)
      = List.range' s n ++ List.range' (s + n) (k - s - n) := by
    have h2 := List.range'_append_1 s n (k - s - n)
    rw [Nat.sub_add_cancel hnk] at h2
    exact h2.symm
  have hwindow : ((List.range k).drop s).take n = List.range' s n := by
    rw [hsplit1, List.drop_left' (List.length_range' 0 1 s), hsplit2,
      List.take_left' (List.length_range' s 1 n)]
  rw [← List.map_drop, ← List.map_take, hwindow, List.count_eq_countP,
    List.countP_map]
  cases mf
  · simpa using countP_shift_mult_range n hn 1 s
  · simpa using countP_mult_range n hn s

/-- Witness for C3: period 3, matchFirst off, seven calls, the window
of calls 3-5. -/
theorem periodic_window_exactly_one_witness :
    (1 ≤ 3) ∧ (3 < 2 ^ 32) ∧ ((NewExclude []).Match "a" = some true)
    ∧ (2 + 3 ≤ 7)
    ∧ (((((List.range 7).map fun j =>
          if false then decide (j % periodModulus 3 = 0)
          else decide ((j + 1) % periodModulus 3 = 0)).drop 2).take 3).count true
        = 1) := by
  refine ⟨by decide, by decide, by decide, by decide, ?_⟩
  have hscope : (NewExclude []).Match "a" = some true := by decide
  have hM : periodModulus (3 : ℕ) < uint64Card := by norm_num [periodModulus, uint64Card]
  exact periodic_window_exactly_one 3 (by decide) (by decide) (NewExclude []) "a"
    false 7 2 hscope (by decide) _ _
    (periodRun_single_op ⟨NewExclude [], 3, false⟩ "a" hscope hM 7)

/-- C6: a sampler configured with period 0 behaves exactly as one with
period 1 on every run from every store; the modulus actually used,
`max(n, 1)`, is positive for every configured period, so no decision
divides or takes a remainder by zero; and with period 0 every in-scope
call returns true. -/
theorem period_zero_behaves_as_period_one (scope : RouteScope) (mf : Bool)
    (st : CounterMap) (ops : List Operation) :
    periodRun ⟨scope, 0, mf⟩ st ops = periodRun ⟨scope, 1, mf⟩ st ops
    ∧ (∀ m, 0 < periodModulus m)
    ∧ (∀ op, scope.Match op = some true →
        (periodMatchStep ⟨scope, 0, mf⟩ st op).map Prod.fst = some true) := by
  have hmod : periodModulus 0 = periodModulus 1 := by decide
  have hstep : ∀ (st : CounterMap) (op : Operation),
      periodMatchStep ⟨scope, 0, mf⟩ st op
        = periodMatchStep ⟨scope, 1, mf⟩ st op := by
    intro st op
    simp only [periodMatchStep, hmod]
  have hrun : ∀ (l : List Operation) (st : CounterMap),
      periodRun ⟨scope, 0, mf⟩ st l = periodRun ⟨scope, 1, mf⟩ st l := by
    intro l
    induction l with
    | nil => intro st; rfl
    | cons op rest ih =>
      intro st
      simp only [periodRun, hstep st op]
      cases hs : periodMatchStep ⟨scope, 1, mf⟩ st op with
      | none => rfl
      | some p =>
        obtain ⟨b, st1⟩ := p
        simp only [ih]
  have htrue : ∀ op, scope.Match op = some true →
      (periodMatchStep ⟨scope, 0, mf⟩ st op).map Prod.fst = some true := by
    intro op hop
    have h1 : periodModulus 0 = 1 := by decide
    cases hst : st op with
    | none =>
      cases mf
      · simp [periodMatchStep, hop, hst, h1]
      · simp [periodMatchStep, hop, hst]
    | some c0 =>
      simp [periodMatchStep, hop, hst, h1, Nat.mod_one]
  exact ⟨hrun ops st, fun m => periodModulus_pos m, htrue⟩

/-- Witness for C6 at a concrete scope, store and call list. -/
theorem period_zero_behaves_as_period_one_witness :
    periodRun ⟨NewExclude [], 0, true⟩ (fun _ => none) ["a"]
        = periodRun ⟨NewExclude [], 1, true⟩ (fun _ => none) ["a"]
    ∧ (∀ m, 0 < periodModulus m)
    ∧ (∀ op, (NewExclude []).Match op = some true →
        (periodMatchStep ⟨NewExclude [], 0, true⟩ (fun _ => none) op).map Prod.fst
          = some true) :=
  period_zero_behaves_as_period_one (NewExclude []) true (fun _ => none) ["a"]

/-- C7: a decision for one operation never touches the stored count of
a different operation: whatever the step does for `opA`, the store at
`opB ≠ opA` is unchanged. -/
theorem distinct_operations_independent (cfg : PeriodConfig) (st : CounterMap)
    (opA opB : Operation) (b : Bool) (st1 : CounterMap)
    (hne : opB ≠ opA)
    (h : periodMatchStep cfg st opA = some (b, st1)) :
    st1 opB = st opB := by
  cases hm : cfg.routeScope.Match opA with
  | none => simp [periodMatchStep, hm] at h
  | some mb =>
    cases mb with
    | false =>
      simp only [periodMatchStep, hm, Option.some.injEq, Prod.mk.injEq] at h
      rw [← h.2]
    | true =>
      cases hst : st opA with
      | none =>
        by_cases hmf : cfg.matchFirst = true
        · simp only [periodMatchStep, hm, hst, hmf, if_true, Option.some.injEq,
            Prod.mk.injEq] at h
          rw [← h.2]
          simp [hne]
        · rw [Bool.not_eq_true] at hmf
          simp only [periodMatchStep, hm, hst, hmf, Bool.false_eq_true, if_false,
            Option.some.injEq, Prod.mk.injEq] at h
          rw [← h.2]
          simp [hne]
      | some c0 =>
        simp only [periodMatchStep, hm, hst, Option.some.injEq, Prod.mk.injEq] at h
        rw [← h.2]
        simp [hne]

/-- Witness for C7: a first-arrival step for "a" leaves the (absent)
record of "b" absent. -/
theorem distinct_operations_independent_witness :
    ("b" : Operation) ≠ "a"
    ∧ periodMatchStep ⟨NewExclude [], 3, true⟩ (fun _ => none) "a"
        = some (true, fun x => if x = "a" then some 0 else none)
    ∧ (fun x : Operation => if x = "a" then some 0 else (none : Option ℕ)) "b"
        = (fun _ : Operation => (none : Option ℕ)) "b" :=
  ⟨by decide, by simp [periodMatchStep, RouteScope.Match, NewExclude, NewSet,
      INCLUDE, EXCLUDE],
   distinct_operations_independent ⟨NewExclude [], 3, true⟩ (fun _ => none)
     "a" "b" true (fun x => if x = "a" then some 0 else none) (by decide)
     (by simp [periodMatchStep, RouteScope.Match, NewExclude, NewSet,
       INCLUDE, EXCLUDE])⟩

/-- C4: scope membership semantics.  An INCLUDE scope matches exactly
the members, an EXCLUDE scope exactly the non-members; with a blank
member set INCLUDE matches nothing and EXCLUDE everything, and the
legacy `SelectPath.Match` treats an absent (`nil`) member map the same
way. -/
theorem scope_match_semantics (S : Finset Operation) (op : Operation) :
    (RouteScope.mk INCLUDE S).Match op = some (decide (op ∈ S))
    ∧ (RouteScope.mk EXCLUDE S).Match op = some (decide (op ∉ S))
    ∧ (RouteScope.mk INCLUDE ∅).Match op = some false
    ∧ (RouteScope.mk EXCLUDE ∅).Match op = some true
    ∧ (SelectPath.mk INCLUDE none).Match op = some false
    ∧ (SelectPath.mk EXCLUDE none).Match op = some true := by
  refine ⟨?_, ?_, ?_, ?_, ?_, ?_⟩ <;>
    simp [RouteScope.Match, SelectPath.Match, INCLUDE, EXCLUDE]

/-- C5: `Opposite` flips the polarity and rebuilds an equal member set
from the key list (a fresh value, so in the Go source mutating the copy
cannot reach the original), and applying `Opposite` twice yields a
scope whose `Match` agrees with the original on every operation. -/
theorem opposite_flips_and_roundtrips (c : RouteScope)
    (h : c.Side = INCLUDE ∨ c.Side = EXCLUDE) :
    ∃ c1, c.Opposite = some c1
      ∧ c1.Side = (if c.Side = INCLUDE then EXCLUDE else INCLUDE)
      ∧ c1.OperationSet = c.OperationSet
      ∧ ∃ c2, c1.Opposite = some c2 ∧ ∀ op, c2.Match op = c.Match op := by
  have hne : (EXCLUDE : SelectSide) ≠ INCLUDE := by decide
  rcases h with h | h
  · refine ⟨{ Side := EXCLUDE, OperationSet := c.OperationSet }, ?_, ?_, rfl, ?_⟩
    · simp [RouteScope.Opposite, h]
    · simp [h]
    · refine ⟨{ Side := INCLUDE, OperationSet := c.OperationSet }, ?_, ?_⟩
      · simp [RouteScope.Opposite, INCLUDE, EXCLUDE]
      · intro op
        simp [RouteScope.Match, h]
  · refine ⟨{ Side := INCLUDE, OperationSet := c.OperationSet }, ?_, ?_, rfl, ?_⟩
    · simp [RouteScope.Opposite, h, INCLUDE, EXCLUDE]
    · rw [h, if_neg hne]
    · refine ⟨{ Side := EXCLUDE, OperationSet := c.OperationSet }, ?_, ?_⟩
      · simp [RouteScope.Opposite]
      · intro op
        simp [RouteScope.Match, h, INCLUDE, EXCLUDE]

/-- Witness for C5 at a concrete scope. -/
theorem opposite_flips_and_roundtrips_witness :
    ((NewInclude ["a", "b"]).Side = INCLUDE ∨ (NewInclude ["a", "b"]).Side = EXCLUDE)
    ∧ ∃ c1, (NewInclude ["a", "b"]).Opposite = some c1
      ∧ c1.Side = (if (NewInclude ["a", "b"]).Side = INCLUDE then EXCLUDE else INCLUDE)
      ∧ c1.OperationSet = (NewInclude ["a", "b"]).OperationSet
      ∧ ∃ c2, c1.Opposite = some c2
        ∧ ∀ op, c2.Match op = (NewInclude ["a", "b"]).Match op :=
  ⟨Or.inl rfl, opposite_flips_and_roundtrips (NewInclude ["a", "b"]) (Or.inl rfl)⟩

/-- C9 counterexample: the polarity type is a string type, so a third
value such as "INVALID" is representable, is neither INCLUDE nor
EXCLUDE, and drives `Match`, `Opposite` and `SelectSide.Opposite` into
the runtime panic branch (`none`) — the invalid state is guarded at
runtime, not made unrepresentable by construction. -/
theorem selectside_third_value_representable :
    ("INVALID" : SelectSide) ≠ INCLUDE
    ∧ ("INVALID" : SelectSide) ≠ EXCLUDE
    ∧ sideOpposite "INVALID" = none
    ∧ (RouteScope.mk "INVALID" ∅).Match "x" = none
    ∧ (RouteScope.mk "INVALID" ∅).Opposite = none := by
  refine ⟨by decide, by decide, by decide, ?_, ?_⟩ <;>
    simp [RouteScope.Match, RouteScope.Opposite, INCLUDE, EXCLUDE]

/-- C9 amended: the polarity is a string type with runtime guards:
`Match`, `Opposite` and `SelectSide.Opposite` succeed exactly on the
two constants INCLUDE and EXCLUDE and reach the panic (fail-fast)
branch on every other representable polarity value. -/
theorem selectside_runtime_guard (s : SelectSide) (S : Finset Operation)
    (op : Operation) :
    ((RouteScope.mk s S).Match op ≠ none ↔ s = INCLUDE ∨ s = EXCLUDE)
    ∧ ((RouteScope.mk s S).Opposite ≠ none ↔ s = INCLUDE ∨ s = EXCLUDE)
    ∧ (sideOpposite s ≠ none ↔ s = INCLUDE ∨ s = EXCLUDE) := by
  unfold RouteScope.Match RouteScope.Opposite sideOpposite
  refine ⟨?_, ?_, ?_⟩ <;> split_ifs with ha hb <;> simp_all

/-- C8: the random sampler's in-scope decision is exactly the
comparison of one uniform draw in [0,1) against the rate; a rate of at
least 1 always yields true and a rate of at most 0 always yields false. -/
theorem random_decision_semantics (scope : RouteScope) (rate : ℚ)
    (gen : ℕ → ℚ) (pos : ℕ) (op : Operation)
    (hscope : scope.Match op = some true)
    (h0 : 0 ≤ gen pos) (h1 : gen pos < 1) :
    randomMatchStep ⟨scope, rate⟩ gen pos op
        = some (decide (gen pos < rate), pos + 1)
    ∧ (1 ≤ rate →
        randomMatchStep ⟨scope, rate⟩ gen pos op = some (true, pos + 1))
    ∧ (rate ≤ 0 →
        randomMatchStep ⟨scope, rate⟩ gen pos op = some (false, pos + 1)) := by
  refine ⟨?_, ?_, ?_⟩
  · simp [randomMatchStep, hscope]
  · intro hr
    have : gen pos < rate := lt_of_lt_of_le h1 hr
    simp [randomMatchStep, hscope, this]
  · intro hr
    have : ¬ gen pos < rate := not_lt.mpr (le_trans hr h0)
    simp [randomMatchStep, hscope, this]

/-- Witness for C8 at a concrete scope, rate and draw sequence. -/
theorem random_decision_semantics_witness :
    (NewExclude []).Match "a" = some true
    ∧ (0 : ℚ) ≤ (fun _ : ℕ => (1 : ℚ) / 2) 0
    ∧ (fun _ : ℕ => (1 : ℚ) / 2) 0 < 1
    ∧ (randomMatchStep ⟨NewExclude [], 3 / 4⟩ (fun _ => 1 / 2) 0 "a"
        = some (decide ((fun _ : ℕ => (1 : ℚ) / 2) 0 < 3 / 4), 0 + 1)
      ∧ (1 ≤ (3 : ℚ) / 4 →
          randomMatchStep ⟨NewExclude [], 3 / 4⟩ (fun _ => 1 / 2) 0 "a"
            = some (true, 0 + 1))
      ∧ ((3 : ℚ) / 4 ≤ 0 →
          randomMatchStep ⟨NewExclude [], 3 / 4⟩ (fun _ => 1 / 2) 0 "a"
            = some (false, 0 + 1))) :=
  ⟨by simp [RouteScope.Match, NewExclude, NewSet, INCLUDE, EXCLUDE],
   by norm_num, by norm_num,
   random_decision_semantics (NewExclude []) (3 / 4) (fun _ => 1 / 2) 0 "a"
     (by simp [RouteScope.Match, NewExclude, NewSet, INCLUDE, EXCLUDE])
     (by norm_num) (by norm_num)⟩

/-- C10: an out-of-scope call returns false without consuming a draw:
a whole run of out-of-scope operations returns all-false, leaves the
draw cursor where it started, and is identical for any two draw
sequences (the random source's state never influences, and is never
perturbed by, out-of-scope traffic). -/
theorem out_of_scope_consumes_no_draw (scope : RouteScope) (rate : ℚ)
    (ops : List Operation)
    (hops : ∀ op ∈ ops, scope.Match op = some false)
    (g1 g2 : ℕ → ℚ) (pos : ℕ) :
    randomRun ⟨scope, rate⟩ g1 pos ops
        = some (List.replicate ops.length false, pos)
    ∧ randomRun ⟨scope, rate⟩ g1 pos ops = randomRun ⟨scope, rate⟩ g2 pos ops := by
  have main : ∀ (g : ℕ → ℚ) (ops : List Operation),
      (∀ op ∈ ops, scope.Match op = some false) → ∀ pos,
      randomRun ⟨scope, rate⟩ g pos ops
        = some (List.replicate ops.length false, pos) := by
    intro g ops hops
    induction ops with
    | nil => intro pos; simp [randomRun]
    | cons op rest ih =>
      intro pos
      have hop : scope.Match op = some false := hops op (List.mem_cons_self op rest)
      have hrest : ∀ x ∈ rest, scope.Match x = some false :=
        fun x hx => hops x (List.mem_cons_of_mem op hx)
      simp only [randomRun, randomMatchStep, hop, ih hrest pos,
        List.length_cons, List.replicate_succ]
  refine ⟨main g1 ops hops pos, ?_⟩
  rw [main g1 ops hops pos, main g2 ops hops pos]

/-- Witness for C10 at a concrete scope and two distinct draw
sequences. -/
theorem out_of_scope_consumes_no_draw_witness :
    (∀ op ∈ ["b", "b"], (NewInclude ["a"]).Match op = some false)
    ∧ randomRun ⟨NewInclude ["a"], 1⟩ (fun _ => 0) 7 ["b", "b"]
        = some (List.replicate (["b", "b"] : List Operation).length false, 7)
    ∧ randomRun ⟨NewInclude ["a"], 1⟩ (fun _ => 0) 7 ["b", "b"]
        = randomRun ⟨NewInclude ["a"], 1⟩ (fun i => i) 7 ["b", "b"] := by
  have h : ∀ op ∈ (["b", "b"] : List Operation),
      (NewInclude ["a"]).Match op = some false := by
    intro op hop
    rcases List.mem_cons.mp hop with h1 | h1
    · subst h1; simp [RouteScope.Match, NewInclude, NewSet, INCLUDE]
    · rcases List.mem_singleton.mp h1 with rfl
      simp [RouteScope.Match, NewInclude, NewSet, INCLUDE]
  exact ⟨h,
    (out_of_scope_consumes_no_draw (NewInclude ["a"]) 1 ["b", "b"] h
      (fun _ => 0) (fun i => i) 7).1,
    (out_of_scope_consumes_no_draw (NewInclude ["a"]) 1 ["b", "b"] h
      (fun _ => 0) (fun i => i) 7).2⟩

end AuthKratos
